import Mathlib

/-!
Verification of the Normalization & Hint Engine and Span Reconciliation
Engine of the Toxic_Bias repository.

The TypeScript sources are shallowly embedded:
* `app/lib/normalize.ts`   → `normalizeForMatch`, `toOriginalSpan`
* the updated analyze route (`mergeOverlaps`, `reconcileOverall`,
  `toNumberSeverity`, `postProcess`, `buildHints`) → the homonymous
  definitions below.

JS strings are modelled as `List Char` (one entry per UTF-16 code unit of
the source string); JS numbers used as offsets are modelled as `Int` (all
call sites use integral values), severities as `ℚ`.  The Unicode NFKD
decomposition + combining-mark stripping and `toLowerCase` used by
`normalizeForMatch` are external library functions; they are taken as
function parameters (`decomp`, `low`), so every theorem below holds for
any behaviour of those library calls.
-/

namespace ToxicBias

/-- JS whitespace class used by `String.prototype.trim` (the members that
matter here: ASCII whitespace plus the common Unicode space characters). -/
def jsIsSpace (c : Char) : Bool :=
  c = ' ' || c = '\t' || c = '\n' || c = '\r' ||
  c.toNat = 0x0b || c.toNat = 0x0c ||
  c.toNat = 0xa0 || c.toNat = 0x1680 ||
  (0x2000 ≤ c.toNat && c.toNat ≤ 0x200a) ||
  c.toNat = 0x2028 || c.toNat = 0x2029 || c.toNat = 0x202f ||
  c.toNat = 0x205f || c.toNat = 0x3000 || c.toNat = 0xfeff

/-- `s.trim()` of JS: remove leading and trailing whitespace. -/
def jsTrim (s : List Char) : List Char :=
  ((s.dropWhile jsIsSpace).reverse.dropWhile jsIsSpace).reverse

/-- Is the first list a prefix of the second (computable)? -/
def isPrefixL : List Char → List Char → Bool
  | [], _ => true
  | _ :: _, [] => false
  | a :: as, b :: bs => a = b && isPrefixL as bs

/-- `hay.includes(nee)` of JS: substring containment. -/
def listIncludes (hay nee : List Char) : Bool :=
  match hay with
  | [] => nee.isEmpty
  | _ :: t => isPrefixL nee hay || listIncludes t nee

/-- `hay.indexOf(nee)` of JS, as an `Option` (JS returns `-1` for `none`). -/
def indexOfSub (hay nee : List Char) : Option Nat :=
  if isPrefixL nee hay then some 0
  else
    match hay with
    | [] => none
    | _ :: t => (indexOfSub t nee).map (· + 1)

/-- `t.slice(a, b)` of JS for non-negative `a ≤ b` (the only call shape the
route uses): characters of `t` in the half-open range `[a, b)`. -/
def jsSlice (t : List Char) (a b : Nat) : List Char :=
  (t.take b).drop a

/-- `t.slice(a, b)` with `Int` endpoints; every call site passes values
already clamped into `[0, t.length]`. -/
def jsSliceI (t : List Char) (a b : Int) : List Char :=
  jsSlice t a.toNat b.toNat

/-! ## Normalizer (`app/lib/normalize.ts`) -/

/-- Options record of `normalizeForMatch`; `none` models an absent field. -/
structure NormOpts where
  foldDiacritics : Option Bool := none
  lowercase : Option Bool := none
  repeatMax : Option Int := none

/-- Return value of `normalizeForMatch`: canonical text plus index map. -/
structure NormMap where
  norm : List Char
  map : List Nat
deriving DecidableEq

/-- Loop state of `normalizeForMatch`: output so far, map so far, previous
emitted-or-considered canonical character, current run length. -/
structure NormState where
  out : List Char
  map : List Nat
  prev : Option Char
  runLen : Nat
deriving DecidableEq

/-- Appending one canonical character `c` produced by raw index `i`
(the body shared by both branches of the source loop). -/
def pushCanon (rMax : Nat) (i : Nat) (st : NormState) (c : Char) : NormState :=
  if st.prev = some c then
    if st.runLen < rMax then
      { st with out := st.out ++ [c], map := st.map ++ [i], runLen := st.runLen + 1 }
    else st
  else
    { out := st.out ++ [c], map := st.map ++ [i], prev := some c, runLen := 1 }

/-- Processing one raw character `ch` at index `i`: fold it into zero or
more canonical characters (via the external `decomp` = NFKD + strip marks
and `low` = `toLowerCase`), then append each. -/
def stepChar (decomp : Char → List Char) (low : Char → Char)
    (fold lower : Bool) (rMax : Nat) (st : NormState) (i : Nat) (ch : Char) :
    NormState :=
  let cs := if fold then (decomp ch).map (fun x => if lower then low x else x)
            else [if lower then low ch else ch]
  cs.foldl (pushCanon rMax i) st

/-- The `for (let i = 0; i < input.length; i++)` loop. -/
def normGo (decomp : Char → List Char) (low : Char → Char)
    (fold lower : Bool) (rMax : Nat) (st : NormState) (i : Nat) :
    List Char → NormState
  | [] => st
  | ch :: rest =>
      normGo decomp low fold lower rMax
        (stepChar decomp low fold lower rMax st i ch) (i + 1) rest

/-- `normalizeForMatch` of `app/lib/normalize.ts`. -/
def normalizeForMatch (decomp : Char → List Char) (low : Char → Char)
    (input : List Char) (opts : NormOpts) : NormMap :=
  let fold := opts.foldDiacritics ≠ some false
  let lower := opts.lowercase ≠ some false
  let rMax := (max 1 (opts.repeatMax.getD 1)).toNat
  let st := normGo decomp low fold lower rMax ⟨[], [], none, 0⟩ 0 input
  ⟨st.out, st.map⟩

/-- `toOriginalSpan` of `app/lib/normalize.ts`.  (`Math.max(0, ·)` is
trivial on `Nat` inputs, the shape every caller uses.) -/
def toOriginalSpan (normStart normEnd : Nat) (map : List Nat) : Nat × Nat :=
  if map.length = 0 then (0, 0)
  else if normStart ≥ normEnd then
    let idx := min normStart (map.length - 1)
    let orig := map.getD idx 0
    (orig, orig)
  else
    let s := map.getD (min normStart (map.length - 1)) 0
    let e := map.getD (min (normEnd - 1) (map.length - 1)) 0
    (s, e + 1)

/-- Modelled from the spec (§4.5): the specified case analysis for the
span mapper — empty map gives `(0,0)`, a degenerate range gives
`(map[idx], map[idx])` with the index clamped into `[0, len(map)-1]`,
otherwise `rawStart = map[clamp(canonicalStart)]` and
`rawEnd = map[clamp(canonicalEnd-1)] + 1`. -/
def toOriginalSpanSpec (canonicalStart canonicalEnd : Nat) (map : List Nat) :
    Nat × Nat :=
  if map = [] then (0, 0)
  else if canonicalStart ≥ canonicalEnd then
    let idx := min canonicalStart (map.length - 1)
    (map.getD idx 0, map.getD idx 0)
  else
    (map.getD (min canonicalStart (map.length - 1)) 0,
     map.getD (min (canonicalEnd - 1) (map.length - 1)) 0 + 1)

/-! ## Data model (`app/lib/schema.ts` and the analyze route) -/

/-- The `overall_label` enum `"safe" | "risky" | "unsafe"`.  The third
string is a Lean keyword, so its constructor is spelled `notSafe`. -/
inductive Label where
  | safe
  | risky
  | notSafe
deriving DecidableEq

/-- A reconciled `Issue`.  Offsets are JS numbers (integral at every call
site), `offense` is a string because the merge step may comma-join labels,
`severity` is a JS number (`ℚ`). -/
structure Issue where
  start : Int
  endIdx : Int
  quote : List Char
  offense : List Char
  severity : ℚ
  rationale : List Char
deriving DecidableEq

/-- Result of the JS `Number(...)` conversion: a finite double or one of
the non-finite values. -/
inductive JSNum where
  | nan
  | posInf
  | negInf
  | fin (q : ℚ)
deriving DecidableEq

/-- `Number.isFinite`. -/
def JSNum.isFinite : JSNum → Bool
  | .fin _ => true
  | _ => false

/-- The `string | number` input domain of `toNumberSeverity`. -/
inductive SevIn where
  | ofStr (s : List Char)
  | ofNum (n : JSNum)
deriving DecidableEq

/-- A raw Gemini-reported issue (untrusted: offsets may be absent —
`iss.start ?? 0` — or out of range). -/
structure GeminiIssue where
  start : Option Int
  endIdx : Option Int
  quote : List Char
  offense : List Char
  severity : SevIn
  rationale : List Char
deriving DecidableEq

/-- The parsed Gemini response. -/
structure GeminiAnalysis where
  overall_label : Label
  issues : List GeminiIssue
deriving DecidableEq

/-- A locally detected `Hint` (raw offsets are `toOriginalSpan` outputs,
hence natural numbers). -/
structure Hint where
  start : Nat
  endIdx : Nat
  kind : List Char
  quote : List Char
deriving DecidableEq

/-- The route's `AnalysisResult`. -/
structure AnalysisResult where
  overall_label : Label
  issues : List Issue
deriving DecidableEq

/-! ## Analyze route (updated revision: `src/unnamed/part_002`) -/

/-- `clamp(n, min, max) = Math.max(min, Math.min(max, n))` on offsets. -/
def clamp (n lo hi : Int) : Int :=
  max lo (min hi n)

/-- `clamp` on severities (JS numbers reaching it via `toNumberSeverity`
are already finite). -/
def clampQ (n lo hi : ℚ) : ℚ :=
  max lo (min hi n)

/-- `toNumberSeverity` (part_002 lines 274–278).  `conv` is the external
JS `Number(string)` conversion. -/
def toNumberSeverity (conv : List Char → JSNum) (s : SevIn) : ℚ :=
  let n : JSNum := match s with
    | .ofStr str => conv str
    | .ofNum m => m
  clampQ (match n with | .fin q => q | _ => 0) 0 3

/-- Insert an element after every already-placed element whose `start` is
not larger — one step of the stable ascending sort that
`[...issues].sort((a, b) => a.start - b.start)` performs. -/
def insertByStart (x : Issue) : List Issue → List Issue
  | [] => [x]
  | y :: ys => if y.start ≤ x.start then y :: insertByStart x ys else x :: y :: ys

/-- The stable sort by `start` used at the head of `mergeOverlaps`. -/
def sortByStart (l : List Issue) : List Issue :=
  l.foldl (fun acc x => insertByStart x acc) []

/-- The merge branch of `mergeOverlaps` (part_002 lines 245–256), with the
source's update order: extend `end`; replace `offense` when the candidate's
severity is strictly greater; take the max severity; comma-join when the
(possibly replaced) offense does not contain the candidate's offense;
concatenate rationales with an em-dash line and trim; keep the longer
quote. -/
def mergeInto (last cur : Issue) : Issue :=
  let off1 := if last.severity < cur.severity then cur.offense else last.offense
  let off2 := if listIncludes off1 cur.offense then off1
              else off1 ++ (", ".toList) ++ cur.offense
  { start := last.start
    endIdx := max last.endIdx cur.endIdx
    quote := if last.quote.length < cur.quote.length then cur.quote else last.quote
    offense := off2
    severity := max last.severity cur.severity
    rationale := jsTrim (last.rationale ++ ("\n— ".toList) ++ cur.rationale) }

/-- The left-to-right scan of `mergeOverlaps`: `opn` is the open merged
issue (the mutable `out[out.length - 1]` of the source). -/
def mergeLoop (opn : Issue) : List Issue → List Issue
  | [] => [opn]
  | cur :: rest =>
      if opn.endIdx < cur.start then opn :: mergeLoop cur rest
      else mergeLoop (mergeInto opn cur) rest

/-- `mergeOverlaps` (part_002 lines 237–260). -/
def mergeOverlaps (issues : List Issue) : List Issue :=
  match sortByStart issues with
  | [] => []
  | x :: rest => mergeLoop x rest

/-- `reconcileOverall` (part_002 lines 263–272): the model's label is an
ignored argument. -/
def reconcileOverall (_modelLabel : Label) (issues : List Issue) : Label :=
  if issues.length = 0 then .safe
  else
    let maxSev := issues.foldl (fun m i => max m i.severity) 0
    if maxSev ≥ 3 then .notSafe
    else if maxSev ≥ 2 ∨ issues.length ≥ 2 then .risky
    else .safe

/-- Modelled from the spec (§4.6 step 4): `issues.length == 0 → safe`;
else with `maxSev` the maximum severity, `maxSev ≥ 3 → unsafe`;
`maxSev ≥ 2 OR issues.length ≥ 2 → risky`; else `safe` — a function of the
issue list alone. -/
def reconcileOverallSpec (issues : List Issue) : Label :=
  match issues with
  | [] => .safe
  | x :: xs =>
      let maxSev := xs.foldl (fun m i => max m i.severity) x.severity
      if maxSev ≥ 3 then .notSafe
      else if maxSev ≥ 2 ∨ (x :: xs).length ≥ 2 then .risky
      else .safe

/-- `if (end < start) [start, end] = [end, start]` of `postProcess`. -/
def swapSpan (s0 e0 : Int) : Int × Int :=
  if e0 < s0 then (e0, s0) else (s0, e0)

/-- The clamp/swap/re-anchor offset computation of `postProcess` (part_002
lines 284–296): the resulting `start`, `end` and un-trimmed quote. -/
def fixSpan (t : List Char) (iss : GeminiIssue) : Int × Int × List Char :=
  let p := swapSpan (clamp (iss.start.getD 0) 0 t.length)
    (clamp (iss.endIdx.getD 0) 0 t.length)
  let q1 := jsSliceI t p.1 p.2
  if iss.quote ≠ [] ∧ listIncludes q1 iss.quote = false then
    match indexOfSub t iss.quote with
    | some idx => ((idx : Int), (idx : Int) + iss.quote.length, iss.quote)
    | none => (p.1, p.2, q1)
  else (p.1, p.2, q1)

/-- The validate/clamp/re-anchor step of `postProcess` (part_002 lines
283–306) for one candidate issue. -/
def fixIssue (conv : List Char → JSNum) (t : List Char) (iss : GeminiIssue) :
    Issue :=
  { start := (fixSpan t iss).1
    endIdx := (fixSpan t iss).2.1
    quote := jsTrim (fixSpan t iss).2.2
    offense := iss.offense
    severity := toNumberSeverity conv iss.severity
    rationale := jsTrim iss.rationale }

/-- The `fixed` list of `postProcess`: validated candidates with empty
spans and empty trimmed quotes dropped. -/
def fixedIssues (conv : List Char → JSNum) (gemini : GeminiAnalysis)
    (t : List Char) : List Issue :=
  (gemini.issues.map (fixIssue conv t)).filter
    (fun i => decide (i.start < i.endIdx) && !i.quote.isEmpty)

/-- The heuristic fallback of `postProcess` (part_002 lines 312–324):
promote the first three hints to severity-1 issues. -/
def fallbackIssues (t : List Char) (hints : List Hint) : List Issue :=
  (hints.take 3).map (fun h =>
    { start := clamp h.start 0 t.length
      endIdx := clamp h.endIdx 0 t.length
      quote := jsTrim (jsSlice t h.start h.endIdx)
      offense := h.kind
      severity := 1
      rationale := "Heuristic lexicon/stereotype flag".toList })

/-- `postProcess` (part_002 lines 281–328). -/
def postProcess (conv : List Char → JSNum) (gemini : GeminiAnalysis)
    (t : List Char) (hints : List Hint) : AnalysisResult :=
  let merged := mergeOverlaps (fixedIssues conv gemini t)
  let withFallback :=
    if merged.length > 0 then merged
    else if hints.length > 0 then fallbackIssues t hints
    else []
  { overall_label := reconcileOverall gemini.overall_label withFallback
    issues := withFallback }

/-- One hint as constructed in `buildHints`: map the canonical match range
back and slice the quote from the original text. -/
def mkHint (t : List Char) (nm : NormMap) (kind : List Char) (ns ne : Nat) :
    Hint :=
  let p := toOriginalSpan ns ne nm.map
  { start := p.1, endIdx := p.2, kind := kind, quote := jsSlice t p.1 p.2 }

/-- `buildHints` (route lines 175–220).  The two regex scans (per-bucket
dictionary pass and stereotype-pattern pass) run in the external JS RegExp
engine; they are modelled by their outputs: lists of canonical match
ranges (with the dictionary matches carrying the bucket's offense kind),
each range lying inside the canonical text.  Both passes then build hints
identically: `toOriginalSpan` plus a quote sliced from the original text. -/
def buildHints (decomp : Char → List Char) (low : Char → Char)
    (dictMatches : List (List Char × Nat × Nat))
    (stMatches : List (Nat × Nat)) (t : List Char) : List Hint :=
  let nm := normalizeForMatch decomp low t
    { foldDiacritics := some true, lowercase := some true, repeatMax := some 2 }
  dictMatches.map (fun m => mkHint t nm m.1 m.2.1 m.2.2)
    ++ stMatches.map (fun m => mkHint t nm ("bias".toList) m.1 m.2)

/-! ## Invariants of the normalizer state -/

/-- Appending an upper bound of a non-decreasing list keeps it
non-decreasing. -/
lemma chain'_le_append_singleton {l : List Nat} {i : Nat}
    (hc : List.Chain' (· ≤ ·) l) (hb : ∀ x ∈ l, x ≤ i) :
    List.Chain' (· ≤ ·) (l ++ [i]) := by
  rw [List.chain'_append]
  refine ⟨hc, List.chain'_singleton _, ?_⟩
  intro x hx y hy
  have hy' : y = i := by simpa using hy.symm
  obtain ⟨hne, hxl⟩ := List.mem_getLast?_eq_getLast hx
  subst hy'
  exact hb x (hxl ▸ List.getLast_mem hne)

/-- Invariant carried through one raw index `i`: lengths agree, the map is
non-decreasing, and all entries are at most `i`. -/
def StepInv (i : Nat) (st : NormState) : Prop :=
  st.out.length = st.map.length ∧ List.Chain' (· ≤ ·) st.map ∧
    ∀ x ∈ st.map, x ≤ i

lemma pushCanon_inv {i rMax : Nat} {st : NormState} {c : Char}
    (h : StepInv i st) : StepInv i (pushCanon rMax i st c) := by
  obtain ⟨hl, hc, hb⟩ := h
  unfold pushCanon
  split
  · split
    · refine ⟨by simp [hl], chain'_le_append_singleton hc hb, ?_⟩
      intro x hx
      rcases List.mem_append.1 hx with hx | hx
      · exact hb x hx
      · simp at hx; omega
    · exact ⟨hl, hc, hb⟩
  · refine ⟨by simp [hl], chain'_le_append_singleton hc hb, ?_⟩
    intro x hx
    rcases List.mem_append.1 hx with hx | hx
    · exact hb x hx
    · simp at hx; omega

lemma foldl_pushCanon_inv {i rMax : Nat} (cs : List Char) :
    ∀ {st : NormState}, StepInv i st →
      StepInv i (cs.foldl (pushCanon rMax i) st) := by
  induction cs with
  | nil => intro st h; exact h
  | cons c cs ih => intro st h; exact ih (pushCanon_inv h)

lemma stepChar_inv {decomp : Char → List Char} {low : Char → Char}
    {fold lower : Bool} {rMax i : Nat} {st : NormState} {ch : Char}
    (h : StepInv i st) :
    StepInv i (stepChar decomp low fold lower rMax st i ch) :=
  foldl_pushCanon_inv _ h

lemma normGo_inv (decomp : Char → List Char) (low : Char → Char)
    (fold lower : Bool) (rMax : Nat) :
    ∀ (l : List Char) (st : NormState) (i : Nat),
      st.out.length = st.map.length →
      List.Chain' (· ≤ ·) st.map →
      (∀ x ∈ st.map, x < i) →
      (normGo decomp low fold lower rMax st i l).out.length =
          (normGo decomp low fold lower rMax st i l).map.length ∧
        List.Chain' (· ≤ ·) (normGo decomp low fold lower rMax st i l).map ∧
        ∀ x ∈ (normGo decomp low fold lower rMax st i l).map, x < i + l.length := by
  intro l
  induction l with
  | nil =>
      intro st i hl hc hb
      exact ⟨hl, hc, fun x hx => by simpa using hb x hx⟩
  | cons ch rest ih =>
      intro st i hl hc hb
      have hstep : StepInv i (stepChar decomp low fold lower rMax st i ch) :=
        stepChar_inv ⟨hl, hc, fun x hx => Nat.le_of_lt (hb x hx)⟩
      obtain ⟨hl', hc', hb'⟩ := hstep
      have := ih (stepChar decomp low fold lower rMax st i ch) (i + 1) hl' hc'
        (fun x hx => Nat.lt_succ_of_le (hb' x hx))
      obtain ⟨h1, h2, h3⟩ := this
      refine ⟨h1, h2, fun x hx => ?_⟩
      have := h3 x hx
      simpa [Nat.add_comm, Nat.add_left_comm] using Nat.lt_of_lt_of_le this (by omega)

/-- The three invariants of `normalizeForMatch`: output and map have equal
length, the map is monotonically non-decreasing, and every entry is a
valid index into the input. -/
lemma normalizeForMatch_inv (decomp : Char → List Char) (low : Char → Char)
    (input : List Char) (opts : NormOpts) :
    (normalizeForMatch decomp low input opts).norm.length =
        (normalizeForMatch decomp low input opts).map.length ∧
      List.Chain' (· ≤ ·) (normalizeForMatch decomp low input opts).map ∧
      ∀ x ∈ (normalizeForMatch decomp low input opts).map, x < input.length := by
  unfold normalizeForMatch
  have := normGo_inv decomp low (opts.foldDiacritics ≠ some false)
    (opts.lowercase ≠ some false) (max 1 (opts.repeatMax.getD 1)).toNat
    input ⟨[], [], none, 0⟩ 0 (by simp) (by simp) (by simp)
  simpa using this

/-! ## Bounds for the span mapper -/

lemma getD_mem_of_lt {l : List Nat} {i : Nat} (h : i < l.length) :
    l.getD i 0 ∈ l := by
  rw [List.getD_eq_getElem l 0 h]
  exact List.getElem_mem h

lemma getD_le_getD {l : List Nat} (hc : List.Chain' (· ≤ ·) l) {i j : Nat}
    (hij : i ≤ j) (hj : j < l.length) : l.getD i 0 ≤ l.getD j 0 := by
  have hi : i < l.length := lt_of_le_of_lt hij hj
  rw [List.getD_eq_getElem l 0 hi, List.getD_eq_getElem l 0 hj]
  rcases eq_or_lt_of_le hij with h | h
  · subst h; exact le_refl _
  · exact (List.pairwise_iff_getElem.1 (List.chain'_iff_pairwise.1 hc)) i j hi hj h

/-- Any in-range canonical range maps to a raw range `(rs, re)` with
`rs ≤ re` and `re ≤ L`, provided the map is non-decreasing with entries
below `L` — the shape delivered by `normalizeForMatch_inv`. -/
lemma toOriginalSpan_bounds {map : List Nat} {L : Nat}
    (hc : List.Chain' (· ≤ ·) map) (hb : ∀ x ∈ map, x < L)
    {ns ne : Nat} (hle : ns ≤ ne) (hne : ne ≤ map.length) :
    (toOriginalSpan ns ne map).1 ≤ (toOriginalSpan ns ne map).2 ∧
      (toOriginalSpan ns ne map).2 ≤ L := by
  unfold toOriginalSpan
  by_cases hmap : map.length = 0
  · simp [hmap]
  · have hpos : 0 < map.length := Nat.pos_of_ne_zero hmap
    by_cases hdeg : ns ≥ ne
    · have hidx : min ns (map.length - 1) < map.length := by omega
      have := hb _ (getD_mem_of_lt hidx)
      simp only [if_neg hmap, if_pos hdeg]
      exact ⟨le_refl _, by omega⟩
    · have hlt : ns < ne := by omega
      have hi : min ns (map.length - 1) ≤ min (ne - 1) (map.length - 1) := by
        have : ns ≤ ne - 1 := by omega
        exact min_le_min this (le_refl _)
      have hj : min (ne - 1) (map.length - 1) < map.length := by omega
      have hmono := getD_le_getD hc hi hj
      have hbnd := hb _ (getD_mem_of_lt hj)
      simp only [if_neg hmap, if_neg hdeg]
      exact ⟨by omega, by omega⟩

/-! ## Structure of `mergeOverlaps` output -/

/-- Ordering by `start`, the sort key of `mergeOverlaps`. -/
def startLE (a b : Issue) : Prop :=
  a.start ≤ b.start

/-- Strict separation of adjacent merged issues: the left one ends before
the right one starts. -/
def sepLT (a b : Issue) : Prop :=
  a.endIdx < b.start

lemma mem_insertByStart {x y : Issue} :
    ∀ {l : List Issue}, y ∈ insertByStart x l ↔ y = x ∨ y ∈ l := by
  intro l
  induction l with
  | nil => simp [insertByStart]
  | cons z zs ih =>
      unfold insertByStart
      split
      · simp only [List.mem_cons, ih]; tauto
      · simp only [List.mem_cons]

lemma pairwise_insertByStart {x : Issue} :
    ∀ {l : List Issue}, List.Pairwise startLE l →
      List.Pairwise startLE (insertByStart x l) := by
  intro l
  induction l with
  | nil => intro _; simp [insertByStart, List.pairwise_cons]
  | cons z zs ih =>
      intro h
      rw [List.pairwise_cons] at h
      obtain ⟨hz, hzs⟩ := h
      unfold insertByStart
      split
      · rw [List.pairwise_cons]
        refine ⟨?_, ih hzs⟩
        intro a ha
        rcases mem_insertByStart.1 ha with rfl | ha
        · assumption
        · exact hz a ha
      · rename_i hzx
        rw [List.pairwise_cons]
        refine ⟨?_, List.pairwise_cons.2 ⟨hz, hzs⟩⟩
        intro a ha
        have hxz : x.start ≤ z.start := le_of_not_le hzx
        rcases List.mem_cons.1 ha with rfl | ha
        · exact hxz
        · exact le_trans hxz (hz a ha)

lemma pairwise_sortByStart (l : List Issue) :
    List.Pairwise startLE (sortByStart l) := by
  have main : ∀ (l : List Issue) (acc : List Issue),
      List.Pairwise startLE acc →
      List.Pairwise startLE (l.foldl (fun a x => insertByStart x a) acc) := by
    intro l
    induction l with
    | nil => intro acc h; exact h
    | cons x xs ih => intro acc h; exact ih _ (pairwise_insertByStart h)
  exact main l [] List.Pairwise.nil

lemma mem_sortByStart {y : Issue} {l : List Issue} :
    y ∈ sortByStart l → y ∈ l := by
  have main : ∀ (l acc : List Issue),
      y ∈ l.foldl (fun a x => insertByStart x a) acc → y ∈ acc ∨ y ∈ l := by
    intro l
    induction l with
    | nil => intro acc h; exact Or.inl h
    | cons x xs ih =>
        intro acc h
        rcases ih _ h with h' | h'
        · rcases mem_insertByStart.1 h' with rfl | h''
          · exact Or.inr (List.mem_cons_self _ _)
          · exact Or.inl h''
        · exact Or.inr (List.mem_cons_of_mem _ h')
  intro h
  rcases main l [] h with h' | h'
  · simp at h'
  · exact h'

lemma insertByStart_of_le {x : Issue} :
    ∀ {l : List Issue}, (∀ y ∈ l, y.start ≤ x.start) →
      insertByStart x l = l ++ [x] := by
  intro l
  induction l with
  | nil => intro _; rfl
  | cons z zs ih =>
      intro h
      unfold insertByStart
      rw [if_pos (h z (List.mem_cons_self _ _))]
      rw [ih (fun y hy => h y (List.mem_cons_of_mem _ hy))]
      simp

/-- The stable sort leaves an already-sorted list unchanged. -/
lemma sortByStart_of_pairwise {l : List Issue}
    (h : List.Pairwise startLE l) : sortByStart l = l := by
  have main : ∀ (l acc : List Issue), List.Pairwise startLE (acc ++ l) →
      l.foldl (fun a x => insertByStart x a) acc = acc ++ l := by
    intro l
    induction l with
    | nil => intro acc _; simp
    | cons x xs ih =>
        intro acc h
        have hacc : ∀ y ∈ acc, y.start ≤ x.start := by
          intro y hy
          have := (List.pairwise_append.1 h).2.2
          exact this y hy x (List.mem_cons_self _ _)
        simp only [List.foldl_cons]
        rw [insertByStart_of_le hacc]
        have : acc ++ [x] ++ xs = acc ++ x :: xs := by simp
        rw [ih (acc ++ [x]) (by rw [this]; exact h)]
        simp
  simpa using main l [] (by simpa using h)

/-- Core induction for `mergeLoop`: on a sorted candidate list the output
is sorted, strictly separated, and headed by an issue with the open
issue's `start`. -/
lemma mergeLoop_go :
    ∀ (rest : List Issue) (opn : Issue),
      List.Pairwise startLE (opn :: rest) →
      List.Pairwise startLE (mergeLoop opn rest) ∧
        List.Chain' sepLT (mergeLoop opn rest) ∧
        (∀ y ∈ mergeLoop opn rest, opn.start ≤ y.start) ∧
        ∃ hd tl, mergeLoop opn rest = hd :: tl ∧ hd.start = opn.start := by
  intro rest
  induction rest with
  | nil =>
      intro opn _
      exact ⟨List.pairwise_singleton _ _, List.chain'_singleton _,
        by simp [mergeLoop, startLE], opn, [], rfl, rfl⟩
  | cons cur rest' ih =>
      intro opn h
      rw [List.pairwise_cons] at h
      obtain ⟨hopn, hrest⟩ := h
      unfold mergeLoop
      split
      · rename_i hsep
        obtain ⟨hP, hC, hB, hd, tl, heq, hhd⟩ := ih cur hrest
        have hcs : opn.start ≤ cur.start := hopn cur (List.mem_cons_self _ _)
        refine ⟨?_, ?_, ?_, opn, mergeLoop cur rest', rfl, rfl⟩
        · rw [List.pairwise_cons]
          exact ⟨fun y hy => le_trans hcs (hB y hy), hP⟩
        · rw [List.chain'_cons']
          refine ⟨?_, hC⟩
          intro y hy
          rw [heq] at hy
          simp only [List.head?_cons, Option.mem_some_iff] at hy
          subst hy
          show opn.endIdx < hd.start
          rw [hhd]
          exact hsep
        · intro y hy
          rcases List.mem_cons.1 hy with rfl | hy
          · exact le_refl _
          · exact le_trans hcs (hB y hy)
      · rename_i hsep
        have hstart : (mergeInto opn cur).start = opn.start := rfl
        have hmerged : List.Pairwise startLE (mergeInto opn cur :: rest') := by
          rw [List.pairwise_cons]
          refine ⟨?_, (List.pairwise_cons.1 hrest).2⟩
          intro y hy
          show (mergeInto opn cur).start ≤ y.start
          rw [hstart]
          exact hopn y (List.mem_cons_of_mem _ hy)
        obtain ⟨hP, hC, hB, hd, tl, heq, hhd⟩ := ih (mergeInto opn cur) hmerged
        exact ⟨hP, hC, fun y hy => hstart ▸ hB y hy, hd, tl, heq, by rw [hhd, hstart]⟩

/-- The output of `mergeOverlaps` is sorted by `start` and strictly
separated: each issue ends before the next one starts. -/
lemma mergeOverlaps_sorted_sep (l : List Issue) :
    List.Pairwise startLE (mergeOverlaps l) ∧
      List.Chain' sepLT (mergeOverlaps l) := by
  unfold mergeOverlaps
  rcases hs : sortByStart l with _ | ⟨x, rest⟩
  · exact ⟨List.Pairwise.nil, List.chain'_nil⟩
  · have hp := pairwise_sortByStart l
    rw [hs] at hp
    obtain ⟨h1, h2, _⟩ := mergeLoop_go rest x hp
    exact ⟨h1, h2⟩

/-- On an already sorted, strictly separated list the merge loop only
copies. -/
lemma mergeLoop_of_sep :
    ∀ (rest : List Issue) (opn : Issue), List.Chain' sepLT (opn :: rest) →
      mergeLoop opn rest = opn :: rest := by
  intro rest
  induction rest with
  | nil => intro opn _; rfl
  | cons cur rest' ih =>
      intro opn h
      rw [List.chain'_cons] at h
      unfold mergeLoop
      rw [if_pos (show opn.endIdx < cur.start from h.1), ih cur h.2]

/-- A sorted, strictly separated list is a fixed point of
`mergeOverlaps`. -/
lemma mergeOverlaps_of_sorted_sep {l : List Issue}
    (hp : List.Pairwise startLE l) (hc : List.Chain' sepLT l) :
    mergeOverlaps l = l := by
  unfold mergeOverlaps
  rw [sortByStart_of_pairwise hp]
  rcases l with _ | ⟨x, rest⟩
  · rfl
  · exact mergeLoop_of_sep rest x hc

/-- Every element of `mergeOverlaps l` is built from elements of `l` by
repeated `mergeInto`: any property of the inputs closed under `mergeInto`
holds for the outputs. -/
lemma mergeOverlaps_forall (P : Issue → Prop)
    (hclosed : ∀ a b, P a → P b → P (mergeInto a b)) {l : List Issue}
    (hl : ∀ c ∈ l, P c) : ∀ y ∈ mergeOverlaps l, P y := by
  have hloop : ∀ (rest : List Issue) (opn : Issue), P opn →
      (∀ c ∈ rest, P c) → ∀ y ∈ mergeLoop opn rest, P y := by
    intro rest
    induction rest with
    | nil =>
        intro opn hopn _ y hy
        have hyo : y = opn := by simpa [mergeLoop] using hy
        exact hyo ▸ hopn
    | cons cur rest' ih =>
        intro opn hopn hrest y hy
        unfold mergeLoop at hy
        split at hy
        · rcases List.mem_cons.1 hy with rfl | hy
          · exact hopn
          · exact ih cur (hrest cur (List.mem_cons_self _ _))
              (fun c hc => hrest c (List.mem_cons_of_mem _ hc)) y hy
        · exact ih (mergeInto opn cur)
            (hclosed _ _ hopn (hrest cur (List.mem_cons_self _ _)))
            (fun c hc => hrest c (List.mem_cons_of_mem _ hc)) y hy
  intro y hy
  unfold mergeOverlaps at hy
  rcases hs : sortByStart l with _ | ⟨x, rest⟩
  · rw [hs] at hy; simp at hy
  · rw [hs] at hy
    have hmem : ∀ c ∈ x :: rest, P c := by
      intro c hc
      exact hl c (mem_sortByStart (hs ▸ hc))
    exact hloop rest x (hmem x (List.mem_cons_self _ _))
      (fun c hc => hmem c (List.mem_cons_of_mem _ hc)) y hy

/-- Non-overlap of adjacent issues as the spec states it:
`issues[i].end ≤ issues[i+1].start`. -/
def sepLE (a b : Issue) : Prop :=
  a.endIdx ≤ b.start

instance : DecidableRel startLE := fun a b => Int.decLe a.start b.start

instance : DecidableRel sepLE := fun a b => Int.decLe a.endIdx b.start

instance : DecidableRel sepLT := fun a b => Int.decLt a.endIdx b.start

/-! ## Arithmetic helpers for the reconciler -/

lemma foldl_max_sev (xs : List Issue) :
    ∀ a b : ℚ, xs.foldl (fun m i => max m i.severity) (max a b) =
      max a (xs.foldl (fun m i => max m i.severity) b) := by
  induction xs with
  | nil => intro a b; rfl
  | cons x xs ih =>
      intro a b
      simp only [List.foldl_cons]
      rw [max_assoc, ih]

lemma clamp_lo_le {n lo hi : Int} : lo ≤ clamp n lo hi :=
  le_max_left _ _

lemma clamp_le_hi {n lo hi : Int} (h : lo ≤ hi) : clamp n lo hi ≤ hi :=
  max_le h (min_le_left _ _)

lemma clamp_mono {n m lo hi : Int} (h : n ≤ m) :
    clamp n lo hi ≤ clamp m lo hi :=
  max_le_max (le_refl _) (min_le_min (le_refl _) h)

lemma isPrefixL_length : ∀ {nee hay : List Char},
    isPrefixL nee hay = true → nee.length ≤ hay.length := by
  intro nee
  induction nee with
  | nil => intro hay _; simp
  | cons a as ih =>
      intro hay h
      cases hay with
      | nil => simp [isPrefixL] at h
      | cons b bs =>
          simp only [isPrefixL, Bool.and_eq_true] at h
          have := ih h.2
          simp only [List.length_cons]
          omega

lemma indexOfSub_bound : ∀ {hay nee : List Char} {i : Nat},
    indexOfSub hay nee = some i → i + nee.length ≤ hay.length := by
  intro hay
  induction hay with
  | nil =>
      intro nee i h
      unfold indexOfSub at h
      split at h
      · rename_i hpre
        have := isPrefixL_length hpre
        simp at h
        omega
      · simp at h
  | cons b bs ih =>
      intro nee i h
      unfold indexOfSub at h
      split at h
      · rename_i hpre
        have := isPrefixL_length hpre
        simp at h
        subst h
        simpa using this
      · simp only [Option.map_eq_some'] at h
        obtain ⟨j, hj, hij⟩ := h
        have := ih hj
        simp only [List.length_cons]
        omega

/-- The per-issue bounds invariant of claim C4. -/
def InBounds (L : Int) (i : Issue) : Prop :=
  0 ≤ i.start ∧ i.start ≤ i.endIdx ∧ i.endIdx ≤ L

lemma mergeInto_inBounds {L : Int} {a b : Issue} (ha : InBounds L a)
    (hb : InBounds L b) : InBounds L (mergeInto a b) := by
  obtain ⟨ha0, ha1, ha2⟩ := ha
  obtain ⟨hb0, hb1, hb2⟩ := hb
  refine ⟨ha0, ?_, ?_⟩
  · show a.start ≤ max a.endIdx b.endIdx
    exact le_trans ha1 (le_max_left _ _)
  · show max a.endIdx b.endIdx ≤ L
    exact max_le ha2 hb2

lemma swapSpan_bounds (lo hi : Int) {s0 e0 : Int} (hs0 : lo ≤ s0) (hs1 : s0 ≤ hi)
    (he0 : lo ≤ e0) (he1 : e0 ≤ hi) :
    lo ≤ (swapSpan s0 e0).1 ∧ (swapSpan s0 e0).1 ≤ (swapSpan s0 e0).2 ∧
      (swapSpan s0 e0).2 ≤ hi := by
  unfold swapSpan
  split <;> exact ⟨by omega, by omega, by omega⟩

lemma fixSpan_bounds (t : List Char) (iss : GeminiIssue) :
    0 ≤ (fixSpan t iss).1 ∧ (fixSpan t iss).1 ≤ (fixSpan t iss).2.1 ∧
      (fixSpan t iss).2.1 ≤ (t.length : Int) := by
  have hlen : (0 : Int) ≤ (t.length : Int) := Int.ofNat_nonneg _
  obtain ⟨h1, h2, h3⟩ := swapSpan_bounds 0 ((t.length : Int))
    (show (0 : Int) ≤ clamp (iss.start.getD 0) 0 t.length from clamp_lo_le)
    (clamp_le_hi hlen)
    (show (0 : Int) ≤ clamp (iss.endIdx.getD 0) 0 t.length from clamp_lo_le)
    (clamp_le_hi hlen)
  unfold fixSpan
  simp only
  split
  · split
    · rename_i idx hidx
      have hb := indexOfSub_bound hidx
      refine ⟨Int.ofNat_nonneg _, ?_, ?_⟩
      · exact le_add_of_nonneg_right (Int.ofNat_nonneg _)
      · show ((idx : Int) + (iss.quote.length : Int)) ≤ (t.length : Int)
        omega
    · exact ⟨h1, h2, h3⟩
  · exact ⟨h1, h2, h3⟩

lemma fixIssue_inBounds (conv : List Char → JSNum) (t : List Char)
    (iss : GeminiIssue) : InBounds (t.length : Int) (fixIssue conv t iss) :=
  fixSpan_bounds t iss

lemma fixedIssues_inBounds (conv : List Char → JSNum) (g : GeminiAnalysis)
    (t : List Char) :
    ∀ c ∈ fixedIssues conv g t, InBounds (t.length : Int) c := by
  intro c hc
  unfold fixedIssues at hc
  rw [List.mem_filter] at hc
  obtain ⟨hm, _⟩ := hc
  rw [List.mem_map] at hm
  obtain ⟨iss, _, rfl⟩ := hm
  exact fixIssue_inBounds conv t iss

lemma fallbackIssues_inBounds {t : List Char} {hints : List Hint}
    (hh : ∀ h ∈ hints, h.start ≤ h.endIdx) :
    ∀ c ∈ fallbackIssues t hints, InBounds (t.length : Int) c := by
  intro c hc
  unfold fallbackIssues at hc
  rw [List.mem_map] at hc
  obtain ⟨h, hmem, rfl⟩ := hc
  have hse : h.start ≤ h.endIdx := hh h (List.take_subset 3 hints hmem)
  exact ⟨clamp_lo_le, clamp_mono (by exact_mod_cast hse),
    clamp_le_hi (Int.ofNat_nonneg _)⟩

lemma mkHint_inv (decomp : Char → List Char) (low : Char → Char)
    (t : List Char) (opts : NormOpts) (k : List Char) {ns ne : Nat}
    (hle : ns ≤ ne)
    (hne : ne ≤ (normalizeForMatch decomp low t opts).norm.length) :
    (mkHint t (normalizeForMatch decomp low t opts) k ns ne).start ≤
        (mkHint t (normalizeForMatch decomp low t opts) k ns ne).endIdx ∧
      (mkHint t (normalizeForMatch decomp low t opts) k ns ne).endIdx ≤
        t.length ∧
      (mkHint t (normalizeForMatch decomp low t opts) k ns ne).quote =
        jsSlice t (mkHint t (normalizeForMatch decomp low t opts) k ns ne).start
          (mkHint t (normalizeForMatch decomp low t opts) k ns ne).endIdx := by
  obtain ⟨hlen, hc, hb⟩ := normalizeForMatch_inv decomp low t opts
  have hne' : ne ≤ (normalizeForMatch decomp low t opts).map.length :=
    hlen ▸ hne
  obtain ⟨h1, h2⟩ := toOriginalSpan_bounds hc hb hle hne'
  exact ⟨h1, h2, rfl⟩

/-! ## Claims -/

/-- Claim C1, counterexample: on the fallback path (no surviving oracle
candidates but hints present) `postProcess` copies the first hints in
detection order, so the returned issues need be neither sorted by `start`
nor non-overlapping. -/
theorem c1_fallback_counterexample :
    (postProcess (fun _ => JSNum.nan) ⟨Label.safe, []⟩ ("abcdefghij".toList)
          [⟨5, 9, "toxicity".toList, "fghi".toList⟩,
           ⟨0, 4, "hate".toList, "abcd".toList⟩]).issues =
        [⟨5, 9, "fghi".toList, "toxicity".toList, 1,
          "Heuristic lexicon/stereotype flag".toList⟩,
         ⟨0, 4, "abcd".toList, "hate".toList, 1,
          "Heuristic lexicon/stereotype flag".toList⟩] ∧
      ¬ List.Pairwise startLE
        (postProcess (fun _ => JSNum.nan) ⟨Label.safe, []⟩ ("abcdefghij".toList)
          [⟨5, 9, "toxicity".toList, "fghi".toList⟩,
           ⟨0, 4, "hate".toList, "abcd".toList⟩]).issues ∧
      ¬ List.Chain' sepLE
        (postProcess (fun _ => JSNum.nan) ⟨Label.safe, []⟩ ("abcdefghij".toList)
          [⟨5, 9, "toxicity".toList, "fghi".toList⟩,
           ⟨0, 4, "hate".toList, "abcd".toList⟩]).issues := by
  have heq : (postProcess (fun _ => JSNum.nan) ⟨Label.safe, []⟩
      ("abcdefghij".toList)
      [⟨5, 9, "toxicity".toList, "fghi".toList⟩,
       ⟨0, 4, "hate".toList, "abcd".toList⟩]).issues =
      [⟨5, 9, "fghi".toList, "toxicity".toList, 1,
        "Heuristic lexicon/stereotype flag".toList⟩,
       ⟨0, 4, "abcd".toList, "hate".toList, 1,
        "Heuristic lexicon/stereotype flag".toList⟩] := by decide
  refine ⟨heq, ?_, ?_⟩
  · intro hp
    rw [heq] at hp
    have := (List.pairwise_cons.1 hp).1 _ (List.mem_cons_self _ _)
    have h50 : (5 : Int) ≤ 0 := this
    norm_num at h50
  · intro hc
    rw [heq] at hc
    have := (List.chain'_cons.1 hc).1
    have h90 : (9 : Int) ≤ 0 := this
    norm_num at h90

/-- Claim C1, amended: when the merged candidate list is non-empty (the
non-fallback path) the returned issues are sorted by `start` and mutually
non-overlapping; the fallback path returns the first up-to-3 hints in
detection order, which need not satisfy either property. -/
theorem c1_nonfallback_sorted_nonoverlapping (conv : List Char → JSNum)
    (g : GeminiAnalysis) (t : List Char) (hints : List Hint)
    (h : mergeOverlaps (fixedIssues conv g t) ≠ []) :
    List.Pairwise startLE (postProcess conv g t hints).issues ∧
      List.Chain' sepLE (postProcess conv g t hints).issues := by
  obtain ⟨hp, hc⟩ := mergeOverlaps_sorted_sep (fixedIssues conv g t)
  have hpos : 0 < (mergeOverlaps (fixedIssues conv g t)).length :=
    List.length_pos.2 h
  have hiss : (postProcess conv g t hints).issues =
      mergeOverlaps (fixedIssues conv g t) := by
    show (if (mergeOverlaps (fixedIssues conv g t)).length > 0 then
        mergeOverlaps (fixedIssues conv g t)
      else if hints.length > 0 then fallbackIssues t hints else []) =
      mergeOverlaps (fixedIssues conv g t)
    rw [if_pos hpos]
  rw [hiss]
  exact ⟨hp, hc.imp fun a b hab => le_of_lt hab⟩

theorem c1_nonfallback_sorted_nonoverlapping_witness :
    mergeOverlaps (fixedIssues (fun _ => JSNum.nan)
        ⟨Label.safe, [⟨some 0, some 2, [], "hate".toList,
          SevIn.ofNum (JSNum.fin 2), "r".toList⟩]⟩ ("ab".toList)) ≠ [] ∧
      List.Pairwise startLE (postProcess (fun _ => JSNum.nan)
        ⟨Label.safe, [⟨some 0, some 2, [], "hate".toList,
          SevIn.ofNum (JSNum.fin 2), "r".toList⟩]⟩ ("ab".toList) []).issues :=
  ⟨by decide, (c1_nonfallback_sorted_nonoverlapping (fun _ => JSNum.nan)
    ⟨Label.safe, [⟨some 0, some 2, [], "hate".toList,
      SevIn.ofNum (JSNum.fin 2), "r".toList⟩]⟩ ("ab".toList) []
    (by decide)).1⟩

/-- Claim C2: evaluation of `mergeOverlaps` at the failing input.  Merging
a severity-1 `violence` candidate into an open severity-2 `hate` issue
leaves the comma-join branch live: the merged offense is the string
`"hate, violence"`, contradicting both the single-label claim and the
function's own "keeps single offense (strongest)" header comment. -/
theorem c2_merge_comma_join_eval :
    (mergeOverlaps
        [⟨0, 10, "0123456789".toList, "hate".toList, 2, "r1".toList⟩,
         ⟨5, 15, "56789abcde".toList, "violence".toList, 1, "r2".toList⟩]).map
      Issue.offense = ["hate, violence".toList] := by
  decide

/-- Claim C3: `reconcileOverall` equals the spec's pure function of the
issue list (empty → safe; maxSev ≥ 3 → unsafe; maxSev ≥ 2 or ≥ 2 issues →
risky; else safe), and is therefore independent of the oracle's label. -/
theorem c3_reconcileOverall_pure :
    (∀ (l : Label) (issues : List Issue),
        reconcileOverall l issues = reconcileOverallSpec issues) ∧
      ∀ (l1 l2 : Label) (issues : List Issue),
        reconcileOverall l1 issues = reconcileOverall l2 issues := by
  refine ⟨?_, fun l1 l2 issues => rfl⟩
  intro l issues
  cases issues with
  | nil => rfl
  | cons x xs =>
      unfold reconcileOverall reconcileOverallSpec
      rw [if_neg (by simp)]
      have hm : (x :: xs).foldl (fun m i => max m i.severity) 0 =
          max 0 (xs.foldl (fun m i => max m i.severity) x.severity) := by
        simpa using foldl_max_sev xs 0 x.severity
      set M := xs.foldl (fun m i => max m i.severity) x.severity with hM
      have h3 : (max (0 : ℚ) M ≥ 3) ↔ (M ≥ 3) := by
        constructor
        · intro h
          rcases le_max_iff.1 h with h | h
          · norm_num at h
          · exact h
        · intro h
          exact le_max_of_le_right h
      have h2 : (max (0 : ℚ) M ≥ 2) ↔ (M ≥ 2) := by
        constructor
        · intro h
          rcases le_max_iff.1 h with h | h
          · norm_num at h
          · exact h
        · intro h
          exact le_max_of_le_right h
      simp only [hm, h3, h2]

/-- Claim C4, counterexample: quotes are stored trimmed, so an issue whose
clamped slice has surrounding whitespace ends up with
`quote ≠ RawText[start:end]` — at raw text `" ab"` and oracle span `(0,3)`
the final issue has quote `"ab"` but `RawText[0:3] = " ab"`. -/
theorem c4_stale_quote_counterexample :
    (postProcess (fun _ => JSNum.nan)
          ⟨Label.safe, [⟨some 0, some 3, [], "toxicity".toList,
            SevIn.ofNum (JSNum.fin 1), []⟩]⟩ (" ab".toList) []).issues.map
        (fun i => (i.quote, i.start, i.endIdx)) =
      [("ab".toList, (0 : Int), (3 : Int))] ∧
      "ab".toList ≠ jsSliceI (" ab".toList) 0 3 := by
  decide

/-- Claim C4, amended: every returned issue satisfies
`0 ≤ start ≤ end ≤ len(RawText)` (provided each hint has
`start ≤ end`, as every `buildHints` output does); the quote, however, is
the whitespace-trimmed slice (or, for merged issues, the longer
constituent quote) and can differ from `RawText[start:end]`. -/
theorem c4_issue_bounds (conv : List Char → JSNum) (g : GeminiAnalysis)
    (t : List Char) (hints : List Hint)
    (hh : ∀ h ∈ hints, h.start ≤ h.endIdx) :
    ∀ i ∈ (postProcess conv g t hints).issues,
      0 ≤ i.start ∧ i.start ≤ i.endIdx ∧ i.endIdx ≤ (t.length : Int) := by
  intro i hi
  have hiss : (postProcess conv g t hints).issues =
      if (mergeOverlaps (fixedIssues conv g t)).length > 0 then
        mergeOverlaps (fixedIssues conv g t)
      else if hints.length > 0 then fallbackIssues t hints else [] := rfl
  rw [hiss] at hi
  split at hi
  · exact mergeOverlaps_forall (InBounds (t.length : Int))
      (fun a b ha hb => mergeInto_inBounds ha hb)
      (fixedIssues_inBounds conv g t) i hi
  · split at hi
    · exact fallbackIssues_inBounds hh i hi
    · simp at hi

theorem c4_issue_bounds_witness :
    (∀ h ∈ [(⟨0, 1, "hate".toList, "a".toList⟩ : Hint)],
        h.start ≤ h.endIdx) ∧
      ∀ i ∈ (postProcess (fun _ => JSNum.nan) ⟨Label.safe, []⟩ ("ab".toList)
          [⟨0, 1, "hate".toList, "a".toList⟩]).issues,
        0 ≤ i.start ∧ i.start ≤ i.endIdx ∧
          i.endIdx ≤ (("ab".toList).length : Int) :=
  ⟨by decide, c4_issue_bounds (fun _ => JSNum.nan) ⟨Label.safe, []⟩
    ("ab".toList) [⟨0, 1, "hate".toList, "a".toList⟩] (by decide)⟩

/-- Claim C5: `toOriginalSpan` implements exactly the specified case
analysis, and on the map produced by `normalizeForMatch` every canonical
range `0 ≤ s < e ≤ len(norm)` yields raw offsets `0 ≤ rs ≤ re ≤ len(t)`. -/
theorem c5_toOriginalSpan_correct :
    (∀ (ns ne : Nat) (map : List Nat),
        toOriginalSpan ns ne map = toOriginalSpanSpec ns ne map) ∧
      ∀ (decomp : Char → List Char) (low : Char → Char) (t : List Char)
        (opts : NormOpts) (ns ne : Nat), ns < ne →
        ne ≤ (normalizeForMatch decomp low t opts).norm.length →
        (toOriginalSpan ns ne (normalizeForMatch decomp low t opts).map).1 ≤
            (toOriginalSpan ns ne
              (normalizeForMatch decomp low t opts).map).2 ∧
          (toOriginalSpan ns ne (normalizeForMatch decomp low t opts).map).2 ≤
            t.length := by
  constructor
  · intro ns ne map
    unfold toOriginalSpan toOriginalSpanSpec
    by_cases h : map.length = 0
    · rw [if_pos h, if_pos (List.length_eq_zero.1 h)]
    · rw [if_neg h, if_neg (show ¬(map = []) from fun hh => h (by simp [hh]))]
  · intro decomp low t opts ns ne hlt hne
    obtain ⟨hlen, hc, hb⟩ := normalizeForMatch_inv decomp low t opts
    exact toOriginalSpan_bounds hc hb (le_of_lt hlt) (hlen ▸ hne)

theorem c5_toOriginalSpan_correct_witness :
    ((0 : Nat) < 1 ∧
        1 ≤ (normalizeForMatch (fun c => [c]) (fun c => c) ("ab".toList)
          {}).norm.length) ∧
      (toOriginalSpan 0 1 (normalizeForMatch (fun c => [c]) (fun c => c)
            ("ab".toList) {}).map).1 ≤
          (toOriginalSpan 0 1 (normalizeForMatch (fun c => [c]) (fun c => c)
            ("ab".toList) {}).map).2 ∧
        (toOriginalSpan 0 1 (normalizeForMatch (fun c => [c]) (fun c => c)
          ("ab".toList) {}).map).2 ≤ ("ab".toList).length :=
  ⟨⟨by decide, by decide⟩, c5_toOriginalSpan_correct.2 (fun c => [c])
    (fun c => c) ("ab".toList) {} 0 1 (by decide) (by decide)⟩

/-- Claim C6: for every input and option combination `normalizeForMatch`
returns a canonical string and index map of equal length, the map is
monotonically non-decreasing, and every entry is a valid index into the
input. -/
theorem c6_normalize_invariants (decomp : Char → List Char)
    (low : Char → Char) (input : List Char) (opts : NormOpts) :
    (normalizeForMatch decomp low input opts).norm.length =
        (normalizeForMatch decomp low input opts).map.length ∧
      List.Chain' (· ≤ ·) (normalizeForMatch decomp low input opts).map ∧
      ∀ x ∈ (normalizeForMatch decomp low input opts).map,
        x < input.length :=
  normalizeForMatch_inv decomp low input opts

theorem c6_normalize_invariants_witness :
    (0 : Nat) ∈ (normalizeForMatch (fun c => [c]) (fun c => c)
        ("ab".toList) {}).map ∧
      (0 : Nat) < ("ab".toList).length :=
  ⟨by decide, (c6_normalize_invariants (fun c => [c]) (fun c => c)
    ("ab".toList) {}).2.2 0 (by decide)⟩

/-- Claim C7, counterexample: with no `repeatMax` option the source
defaults to `repeatMax = 1` (`opts.repeatMax ?? 1`), so `"aaaa"`
normalizes to `"a"`, not to `"aa"` as the claimed default of 2 would
give. -/
theorem c7_default_counterexample :
    (normalizeForMatch (fun c => [c]) (fun c => c) ("aaaa".toList) {}).norm =
        "a".toList ∧
      (normalizeForMatch (fun c => [c]) (fun c => c) ("aaaa".toList)
        {}).norm ≠ "aa".toList := by
  decide

/-- Claim C7, amended: the default is `repeatMax = 1` — a call without the
option behaves exactly like `repeatMax = 1`, any supplied value below 1 is
raised to 1, and with defaults both `"aaaa"` and `"aaa"` normalize to
`"a"`. -/
theorem c7_default_repeatMax_one (decomp : Char → List Char)
    (low : Char → Char) (input : List Char) :
    normalizeForMatch decomp low input {} =
        normalizeForMatch decomp low input { repeatMax := some 1 } ∧
      (∀ r : Int, r < 1 →
        normalizeForMatch decomp low input { repeatMax := some r } =
          normalizeForMatch decomp low input { repeatMax := some 1 }) ∧
      (normalizeForMatch (fun c => [c]) (fun c => c) ("aaaa".toList) {}).norm =
        "a".toList ∧
      (normalizeForMatch (fun c => [c]) (fun c => c) ("aaa".toList) {}).norm =
        "a".toList := by
  refine ⟨rfl, ?_, by decide, by decide⟩
  intro r hr
  unfold normalizeForMatch
  have h1 : max 1 r = 1 := max_eq_left (by omega)
  simp only [Option.getD_some, h1, max_self]

theorem c7_default_repeatMax_one_witness :
    ((-3 : Int) < 1) ∧
      normalizeForMatch (fun c => [c]) (fun c => c) ("aaaa".toList)
          { repeatMax := some (-3) } =
        normalizeForMatch (fun c => [c]) (fun c => c) ("aaaa".toList)
          { repeatMax := some 1 } :=
  ⟨by norm_num, (c7_default_repeatMax_one (fun c => [c]) (fun c => c)
    ("aaaa".toList)).2.1 (-3) (by norm_num)⟩

/-- Claim C8: `mergeOverlaps` is idempotent. -/
theorem c8_mergeOverlaps_idempotent (X : List Issue) :
    mergeOverlaps (mergeOverlaps X) = mergeOverlaps X := by
  obtain ⟨hp, hc⟩ := mergeOverlaps_sorted_sep X
  exact mergeOverlaps_of_sorted_sep hp hc

/-- Claim C9: every hint built by `buildHints` (dictionary pass and
stereotype pass alike) satisfies `0 ≤ start ≤ end ≤ len(text)` and its
quote is exactly `text.slice(start, end)`, for any in-range canonical
matches delivered by the regex engine. -/
theorem c9_buildHints_invariant (decomp : Char → List Char)
    (low : Char → Char) (dictMatches : List (List Char × Nat × Nat))
    (stMatches : List (Nat × Nat)) (t : List Char)
    (hd : ∀ m ∈ dictMatches, m.2.1 ≤ m.2.2 ∧
      m.2.2 ≤ (normalizeForMatch decomp low t
        { foldDiacritics := some true, lowercase := some true,
          repeatMax := some 2 }).norm.length)
    (hs : ∀ m ∈ stMatches, m.1 ≤ m.2 ∧
      m.2 ≤ (normalizeForMatch decomp low t
        { foldDiacritics := some true, lowercase := some true,
          repeatMax := some 2 }).norm.length) :
    ∀ h ∈ buildHints decomp low dictMatches stMatches t,
      h.start ≤ h.endIdx ∧ h.endIdx ≤ t.length ∧
        h.quote = jsSlice t h.start h.endIdx := by
  intro h hmem
  unfold buildHints at hmem
  rw [List.mem_append] at hmem
  rcases hmem with hmem | hmem
  · rw [List.mem_map] at hmem
    obtain ⟨m, hm, rfl⟩ := hmem
    exact mkHint_inv decomp low t _ m.1 (hd m hm).1 (hd m hm).2
  · rw [List.mem_map] at hmem
    obtain ⟨m, hm, rfl⟩ := hmem
    exact mkHint_inv decomp low t _ ("bias".toList) (hs m hm).1 (hs m hm).2

theorem c9_buildHints_invariant_witness :
    (∀ m ∈ [(("toxicity".toList, 0, 1) : List Char × Nat × Nat)],
        m.2.1 ≤ m.2.2 ∧
          m.2.2 ≤ (normalizeForMatch (fun c => [c]) (fun c => c) ("ab".toList)
            { foldDiacritics := some true, lowercase := some true,
              repeatMax := some 2 }).norm.length) ∧
      ∀ h ∈ buildHints (fun c => [c]) (fun c => c)
          [("toxicity".toList, 0, 1)] [] ("ab".toList),
        h.start ≤ h.endIdx ∧ h.endIdx ≤ ("ab".toList).length ∧
          h.quote = jsSlice ("ab".toList) h.start h.endIdx :=
  ⟨by decide, c9_buildHints_invariant (fun c => [c]) (fun c => c)
    [("toxicity".toList, 0, 1)] [] ("ab".toList) (by decide) (by decide)⟩

/-- Claim C10: `toNumberSeverity` is total — its result always lies in
`[0, 3]` — and any input whose numeric conversion is not finite maps
to 0. -/
theorem c10_toNumberSeverity_total (conv : List Char → JSNum) (s : SevIn) :
    0 ≤ toNumberSeverity conv s ∧ toNumberSeverity conv s ≤ 3 ∧
      ∀ str : List Char, (conv str).isFinite = false →
        toNumberSeverity conv (.ofStr str) = 0 := by
  refine ⟨le_max_left _ _, max_le (by norm_num) (min_le_left _ _), ?_⟩
  intro str hfin
  have h0 : toNumberSeverity conv (.ofStr str) =
      clampQ (match conv str with | JSNum.fin q => q | _ => 0) 0 3 := rfl
  cases hcv : conv str with
  | fin q => rw [hcv] at hfin; simp [JSNum.isFinite] at hfin
  | nan =>
      rw [h0, hcv]
      show max 0 (min 3 0) = 0
      norm_num
  | posInf =>
      rw [h0, hcv]
      show max 0 (min 3 0) = 0
      norm_num
  | negInf =>
      rw [h0, hcv]
      show max 0 (min 3 0) = 0
      norm_num

theorem c10_toNumberSeverity_total_witness :
    ((fun _ : List Char => JSNum.nan) ("x".toList)).isFinite = false ∧
      toNumberSeverity (fun _ => JSNum.nan) (.ofStr ("x".toList)) = 0 :=
  ⟨rfl, (c10_toNumberSeverity_total (fun _ => JSNum.nan)
    (.ofStr ("x".toList))).2.2 ("x".toList) rfl⟩

end ToxicBias
